import Mathlib

/-!
Shallow embedding of the DocSnap chunked-summarization pipeline
(`api/utils/summarizer.py`, `api/utils/formatter.py`,
`api/utils/usage_tracker.py`, `api/streaming.py`, `api/summarize.py`)
and proofs of the claims of the specification about it.

Text is modelled as `List Char`; Python strings are converted with
`String.data` at concrete inputs.
-/

set_option autoImplicit false

namespace DocSnap

/-! ### Python whitespace, strip, and word counting -/

/-- Characters matched by the Python `str.isspace` / regex `\s` (ASCII part). -/
def pyIsSpace (c : Char) : Bool :=
  c = ' ' ∨ c = '\t' ∨ c = '\n' ∨ c = '\r' ∨ c = '\x0b' ∨ c = '\x0c'

/-- Python `str.lstrip()`. -/
def lstrip (l : List Char) : List Char := l.dropWhile pyIsSpace

/-- Python `str.rstrip()`. -/
def rstrip (l : List Char) : List Char := (l.reverse.dropWhile pyIsSpace).reverse

/-- Python `str.strip()`: whitespace removed from both ends. -/
def pyStrip (l : List Char) : List Char := rstrip (lstrip l)

/-- State-passing word counter: `wcAux l prevWs` counts the maximal
non-whitespace runs of `l`, where `prevWs` says whether the character
just before `l` was whitespace (or `l` is at the start of the string).
`wcAux l true = len(l.split())` in Python terms. -/
def wcAux : List Char → Bool → Nat
  | [], _ => 0
  | c :: cs, prevWs =>
    (if ¬ pyIsSpace c ∧ prevWs then 1 else 0) + wcAux cs (pyIsSpace c)

/-- Python `len(s.split())`: number of whitespace-separated words. -/
def wordCount (l : List Char) : Nat := wcAux l true

/-! ### The chunker: `[text[i : i + size] for i in range(0, len(text), size)]` -/

/-- Python `range(start, stop, step)` for a positive step
(`range` raises on `step = 0`; the guard makes the model total). -/
def pyRange (stop step : Nat) (start : Nat) : List Nat :=
  if _h : start < stop ∧ 0 < step then start :: pyRange stop step (start + step)
  else []
termination_by stop - start
decreasing_by omega

/-- Python slice `l[i:j]` for non-negative bounds (with clamping). -/
def pySlice {α : Type} (l : List α) (i j : Nat) : List α := (l.take j).drop i

/-- The chunking comprehension of the pipeline:
`[text[i : i + size] for i in range(0, len(text), size)]`. -/
def chunkText (text : List Char) (size : Nat) : List (List Char) :=
  (pyRange text.length size 0).map (fun i => pySlice text i (i + size))

/-- Recursive chunking of a list into consecutive groups of at most
`size` elements; used both to reason about `chunkText` and to describe
the paragraph grouping of the formatter. -/
def chunkList {α : Type} (size : Nat) : List α → List (List α)
  | [] => []
  | c :: cs =>
    if 0 < size then (c :: cs).take size :: chunkList size ((c :: cs).drop size)
    else []
termination_by l => l.length
decreasing_by simp; omega

theorem chunkList_nil {α : Type} (size : Nat) : chunkList size ([] : List α) = [] := by
  rw [chunkList]

theorem chunkList_cons {α : Type} (size : Nat) (hs : 0 < size) (c : α) (cs : List α) :
    chunkList size (c :: cs)
      = (c :: cs).take size :: chunkList size ((c :: cs).drop size) := by
  rw [chunkList, if_pos hs]

theorem pyRange_stop (stop step start : Nat) (h : ¬ (start < stop ∧ 0 < step)) :
    pyRange stop step start = [] := by
  rw [pyRange, dif_neg h]

theorem pyRange_step (stop step start : Nat) (h : start < stop ∧ 0 < step) :
    pyRange stop step start = start :: pyRange stop step (start + step) := by
  rw [pyRange, dif_pos h]

theorem pySlice_eq_drop_take {α : Type} (l : List α) (i s : Nat) :
    pySlice l i (i + s) = (l.drop i).take s := by
  simp [pySlice, List.drop_take]

theorem pyRange_shift (stop step a : Nat) (hs : 0 < step) :
    pyRange stop step (a + step) = (pyRange (stop - step) step a).map (· + step) := by
  generalize hfuel : stop - a = fuel
  induction fuel using Nat.strong_induction_on generalizing a with
  | _ fuel ih =>
    by_cases hlt : a + step < stop
    · have h1 : a < stop - step := by omega
      rw [pyRange_step stop step (a + step) ⟨hlt, hs⟩,
          pyRange_step (stop - step) step a ⟨h1, hs⟩]
      simp only [List.map_cons]
      have := ih (stop - (a + step)) (by omega) (a + step) rfl
      rw [this]
    · have h1 : ¬ (a < stop - step) := by omega
      rw [pyRange_stop stop step (a + step) (by tauto),
          pyRange_stop (stop - step) step a (by tauto)]
      simp

theorem chunkText_eq_chunkList (text : List Char) (size : Nat) (hs : 0 < size) :
    chunkText text size = chunkList size text := by
  generalize hfuel : text.length = fuel
  induction fuel using Nat.strong_induction_on generalizing text with
  | _ fuel ih =>
    rcases text with _ | ⟨c, cs⟩
    · simp only [chunkText, List.length_nil]
      rw [pyRange_stop 0 size 0 (by omega), chunkList_nil]
      simp
    · rw [chunkList_cons size hs]
      simp only [chunkText]
      rw [pyRange_step (c :: cs).length size 0 ⟨by simp, hs⟩]
      have hsh : pyRange (c :: cs).length size (0 + size)
          = (pyRange ((c :: cs).length - size) size 0).map (· + size) :=
        pyRange_shift _ _ _ hs
      rw [hsh]
      simp only [List.map_cons, List.map_map]
      congr 1
      · rw [pySlice_eq_drop_take]; simp
      · have hlen : ((c :: cs).drop size).length = (c :: cs).length - size := by simp
        have hrec := ih ((c :: cs).drop size).length
          (by simp only [List.length_drop, List.length_cons] at *; omega)
          ((c :: cs).drop size) rfl
        rw [← hrec]
        simp only [chunkText, hlen]
        apply List.map_congr_left
        intro i _
        simp only [Function.comp_apply]
        rw [pySlice_eq_drop_take, pySlice_eq_drop_take, List.drop_drop]
        rw [Nat.add_comm size i]

theorem chunkList_flatten {α : Type} (size : Nat) (hs : 0 < size) (l : List α) :
    (chunkList size l).flatten = l := by
  generalize hfuel : l.length = fuel
  induction fuel using Nat.strong_induction_on generalizing l with
  | _ fuel ih =>
    rcases l with _ | ⟨c, cs⟩
    · rw [chunkList_nil]; rfl
    · rw [chunkList_cons size hs]
      simp only [List.flatten_cons]
      rw [ih ((c :: cs).drop size).length
        (by simp only [List.length_drop, List.length_cons] at *; omega)
        ((c :: cs).drop size) rfl]
      exact List.take_append_drop size (c :: cs)

theorem chunkList_length {α : Type} (size : Nat) (hs : 0 < size) (l : List α) :
    (chunkList size l).length = (l.length + size - 1) / size := by
  generalize hfuel : l.length = fuel
  induction fuel using Nat.strong_induction_on generalizing l with
  | _ fuel ih =>
    rcases l with _ | ⟨c, cs⟩
    · simp only [List.length_nil] at hfuel
      subst hfuel
      rw [chunkList_nil]
      simp only [List.length_nil, Nat.zero_add]
      rw [Nat.div_eq_of_lt (by omega)]
    · simp only [List.length_cons] at hfuel
      subst hfuel
      rw [chunkList_cons size hs]
      simp only [List.length_cons]
      rw [ih ((c :: cs).drop size).length
        (by simp only [List.length_drop, List.length_cons]; omega)
        ((c :: cs).drop size) rfl]
      simp only [List.length_drop, List.length_cons]
      rcases Nat.lt_or_ge cs.length size with hle | hgt
      · have h1 : cs.length + 1 - size = 0 := by omega
        have h2 : cs.length + 1 + size - 1 = cs.length + size := by omega
        rw [h1, h2, Nat.add_div_right _ hs, Nat.div_eq_of_lt hle,
            Nat.div_eq_of_lt (by omega)]
      · have h1 : cs.length + 1 - size + size - 1 = cs.length := by omega
        have h2 : cs.length + 1 + size - 1 = cs.length + size := by omega
        rw [h1, h2, Nat.add_div_right _ hs]

theorem chunkList_mem_length {α : Type} (size : Nat) (l : List α) :
    ∀ c ∈ chunkList size l, c.length ≤ size := by
  generalize hfuel : l.length = fuel
  induction fuel using Nat.strong_induction_on generalizing l with
  | _ fuel ih =>
    rcases l with _ | ⟨a, cs⟩
    · rw [chunkList_nil]; intro c hc; cases hc
    · rcases Nat.eq_zero_or_pos size with h0 | hpos
      · subst h0; rw [chunkList]; intro c hc; cases hc
      · rw [chunkList_cons size hpos]
        intro c hc
        rcases List.mem_cons.mp hc with h | h
        · subst h; simp
        · exact ih ((a :: cs).drop size).length
            (by simp only [List.length_drop, List.length_cons] at *; omega)
            ((a :: cs).drop size) rfl c h

/-! ### The paragraph formatter (`api/utils/formatter.py`) -/

/-- Python `sep.join(parts)`. -/
def pyJoin {α : Type} (sep : List α) : List (List α) → List α
  | [] => []
  | [p] => p
  | p :: q :: rest => p ++ sep ++ pyJoin sep (q :: rest)

/-- Python `" ".join(...)`, the sentence joiner inside a paragraph. -/
def joinSp (parts : List (List Char)) : List Char := pyJoin [' '] parts

/-- The paragraph separator `"\n\n"` (a blank line / double line break). -/
def nl2 : List Char := ['\n', '\n']

/-- The sentence-ending punctuation of the boundary rule `(?<=[.?!])`. -/
def sentenceSeps : List Char := ['.', '?', '!']

/-- The lookahead `(?=[A-Z])`: the next character exists and is an
ASCII uppercase letter. -/
def headIsUpper : List Char → Bool
  | [] => false
  | d :: _ => d.isUpper

/-- Scan of `re.split(r"(?<=[.?!])\s+(?=[A-Z])", s)`: `prevSep` records
whether the character just before the scan position is one of `.?!`,
and `curr` is the reversed accumulator of the sentence being built.
A delimiter match consumes a maximal nonempty whitespace run that is
followed by an uppercase letter. -/
def splitSentencesAux : Bool → List Char → List Char → List (List Char)
  | _, [], curr => [curr.reverse]
  | prevSep, c :: cs, curr =>
    if prevSep && pyIsSpace c && headIsUpper (cs.dropWhile pyIsSpace)
    then curr.reverse :: splitSentencesAux false (cs.dropWhile pyIsSpace) []
    else splitSentencesAux (c ∈ sentenceSeps) cs (c :: curr)
termination_by _ l _ => l.length
decreasing_by
  · have := (@List.dropWhile_sublist Char cs pyIsSpace).length_le
    simp; omega
  · simp

/-- Python `re.split(r"(?<=[.?!])\s+(?=[A-Z])", s)`. -/
def splitSentences (l : List Char) : List (List Char) := splitSentencesAux false l []

/-- The paragraph-building loop of `format_summary_to_paragraphs`:
`for i, sentence in enumerate(sentences, 1): temp.append(sentence);
if i % 3 == 0: paragraphs.append(" ".join(temp)); temp = []`, followed
by `if temp: paragraphs.append(" ".join(temp))`. `i` is the 1-based
index of the next sentence. -/
def formLoop : Nat → List (List Char) → List (List Char) → List (List Char) → List (List Char)
  | _, [], temp, paragraphs => if temp = [] then paragraphs else paragraphs ++ [joinSp temp]
  | i, s :: rest, temp, paragraphs =>
    if i % 3 = 0 then formLoop (i + 1) rest [] (paragraphs ++ [joinSp (temp ++ [s])])
    else formLoop (i + 1) rest (temp ++ [s]) paragraphs

/-- Function `format_summary_to_paragraphs` from `api/utils/formatter.py`:
split the stripped summary into sentences, group every 3 sentences
into a space-joined paragraph, and join paragraphs with `"\n\n"`. -/
def format_summary_to_paragraphs (summary : List Char) : List Char :=
  pyJoin nl2 (formLoop 1 (splitSentences (pyStrip summary)) [] [])

/-- Python `s.replace(pat, rep)` (left-to-right, non-overlapping);
used to state the claim about removing paragraph breaks. -/
def replaceAll (pat rep : List Char) : List Char → List Char
  | [] => []
  | c :: cs =>
    if pat.isPrefixOf (c :: cs) ∧ pat ≠ []
    then rep ++ replaceAll pat rep ((c :: cs).drop pat.length)
    else c :: replaceAll pat rep cs
termination_by l => l.length
decreasing_by
  · rcases pat with _ | ⟨p, ps⟩
    · simp_all
    · simp; omega
  · simp

/-! ### Word-count lemmas -/

/-- Whether the character preceding the continuation is whitespace after
scanning `l`, starting from state `s`. -/
def wsState (l : List Char) (s : Bool) : Bool := l.foldl (fun _ c => pyIsSpace c) s

theorem wsState_nil (s : Bool) : wsState [] s = s := rfl

theorem wsState_cons (c : Char) (cs : List Char) (s : Bool) :
    wsState (c :: cs) s = wsState cs (pyIsSpace c) := rfl

theorem wsState_append (a b : List Char) (s : Bool) :
    wsState (a ++ b) s = wsState b (wsState a s) := by
  simp [wsState, List.foldl_append]

theorem wcAux_append (a b : List Char) (s : Bool) :
    wcAux (a ++ b) s = wcAux a s + wcAux b (wsState a s) := by
  induction a generalizing s with
  | nil => simp [wcAux, wsState_nil]
  | cons c cs ih =>
    rw [List.cons_append]
    show (if ¬ pyIsSpace c ∧ s then 1 else 0) + wcAux (cs ++ b) (pyIsSpace c)
      = ((if ¬ pyIsSpace c ∧ s then 1 else 0) + wcAux cs (pyIsSpace c))
        + wcAux b (wsState (c :: cs) s)
    rw [ih (pyIsSpace c), wsState_cons]
    omega

theorem wcAux_allWs (w : List Char) (hw : ∀ c ∈ w, pyIsSpace c) (s : Bool) :
    wcAux w s = 0 := by
  induction w generalizing s with
  | nil => rfl
  | cons c cs ih =>
    have hc : pyIsSpace c := hw c (List.mem_cons_self c cs)
    show (if ¬ pyIsSpace c ∧ s then 1 else 0) + wcAux cs (pyIsSpace c) = 0
    rw [if_neg (by simp [hc]), Nat.zero_add]
    exact ih (fun d hd => hw d (List.mem_cons_of_mem c hd)) _

theorem wsState_allWs (w : List Char) (hw : ∀ c ∈ w, pyIsSpace c) (hne : w ≠ []) (s : Bool) :
    wsState w s = true := by
  induction w generalizing s with
  | nil => exact absurd rfl hne
  | cons c cs ih =>
    rw [wsState_cons]
    rcases cs with _ | ⟨d, ds⟩
    · rw [wsState_nil]
      exact hw c (List.mem_cons_self c [])
    · exact ih (fun e he => hw e (List.mem_cons_of_mem c he)) (by simp) _

theorem wcAux_ws_left (w b : List Char) (hw : ∀ c ∈ w, pyIsSpace c) (hne : w ≠ [])
    (s : Bool) : wcAux (w ++ b) s = wcAux b true := by
  rw [wcAux_append, wcAux_allWs w hw, wsState_allWs w hw hne, Nat.zero_add]

theorem wcAux_ws_left_true (w b : List Char) (hw : ∀ c ∈ w, pyIsSpace c) :
    wcAux (w ++ b) true = wcAux b true := by
  rcases w with _ | ⟨c, cs⟩
  · rfl
  · exact wcAux_ws_left _ b hw (by simp) true

theorem wcAux_ws_suffix (a w : List Char) (hw : ∀ c ∈ w, pyIsSpace c) (s : Bool) :
    wcAux (a ++ w) s = wcAux a s := by
  rw [wcAux_append, wcAux_allWs w hw, Nat.add_zero]

theorem wcAux_lstrip (l : List Char) : wcAux (lstrip l) true = wcAux l true := by
  have h := wcAux_ws_left_true (List.takeWhile pyIsSpace l) (List.dropWhile pyIsSpace l)
    (fun c hc => List.mem_takeWhile_imp hc)
  unfold lstrip
  rw [← h, List.takeWhile_append_dropWhile]

theorem wcAux_rstrip (m : List Char) : wcAux (rstrip m) true = wcAux m true := by
  have hd : rstrip m ++ (m.reverse.takeWhile pyIsSpace).reverse = m := by
    unfold rstrip
    rw [← List.reverse_append, List.takeWhile_append_dropWhile, List.reverse_reverse]
  conv_rhs => rw [← hd]
  rw [wcAux_ws_suffix]
  exact fun c hc => List.mem_takeWhile_imp (List.mem_reverse.mp hc)

theorem wordCount_pyStrip (l : List Char) : wordCount (pyStrip l) = wordCount l := by
  unfold wordCount pyStrip
  rw [wcAux_rstrip, wcAux_lstrip]

theorem wordCount_pyJoin (sep : List Char) (hsep : ∀ c ∈ sep, pyIsSpace c)
    (hne : sep ≠ []) (parts : List (List Char)) :
    wordCount (pyJoin sep parts) = (parts.map wordCount).sum := by
  induction parts with
  | nil => rfl
  | cons p rest ih =>
    rcases rest with _ | ⟨q, qs⟩
    · simp [pyJoin, wordCount]
    · simp only [pyJoin, List.map_cons, List.sum_cons]
      unfold wordCount
      rw [List.append_assoc, wcAux_append, wcAux_ws_left sep _ hsep hne]
      simp only [pyJoin, List.map_cons, List.sum_cons] at ih
      unfold wordCount at ih
      rw [ih]

/-! ### Sentence splitter and paragraph loop lemmas -/

theorem splitAux_nil (prev : Bool) (curr : List Char) :
    splitSentencesAux prev [] curr = [curr.reverse] := by
  rw [splitSentencesAux]

theorem splitAux_cons_pos (prev : Bool) (c : Char) (cs curr : List Char)
    (h : (prev && pyIsSpace c && headIsUpper (cs.dropWhile pyIsSpace)) = true) :
    splitSentencesAux prev (c :: cs) curr
      = curr.reverse :: splitSentencesAux false (cs.dropWhile pyIsSpace) [] := by
  rw [splitSentencesAux, if_pos h]

theorem splitAux_cons_neg (prev : Bool) (c : Char) (cs curr : List Char)
    (h : ¬ (prev && pyIsSpace c && headIsUpper (cs.dropWhile pyIsSpace)) = true) :
    splitSentencesAux prev (c :: cs) curr
      = splitSentencesAux (decide (c ∈ sentenceSeps)) cs (c :: curr) := by
  rw [splitSentencesAux, if_neg h]

theorem splitAux_ne_nil (l : List Char) : ∀ (prev : Bool) (curr : List Char),
    splitSentencesAux prev l curr ≠ [] := by
  generalize hfuel : l.length = fuel
  induction fuel using Nat.strong_induction_on generalizing l with
  | _ fuel ih =>
    intro prev curr
    rcases l with _ | ⟨c, cs⟩
    · rw [splitAux_nil]; simp
    · by_cases hb : (prev && pyIsSpace c && headIsUpper (cs.dropWhile pyIsSpace)) = true
      · rw [splitAux_cons_pos prev c cs curr hb]; simp
      · rw [splitAux_cons_neg prev c cs curr hb]
        subst hfuel
        exact ih cs.length (by simp) cs rfl _ _

theorem wcSum_splitAux (l : List Char) : ∀ (prev : Bool) (curr : List Char),
    ((splitSentencesAux prev l curr).map wordCount).sum
      = wcAux (curr.reverse ++ l) true := by
  generalize hfuel : l.length = fuel
  induction fuel using Nat.strong_induction_on generalizing l with
  | _ fuel ih =>
    intro prev curr
    rcases l with _ | ⟨c, cs⟩
    · rw [splitAux_nil]
      simp [wordCount]
    · by_cases hb : (prev && pyIsSpace c && headIsUpper (cs.dropWhile pyIsSpace)) = true
      · rw [splitAux_cons_pos prev c cs curr hb]
        simp only [List.map_cons, List.sum_cons]
        have hlen : (cs.dropWhile pyIsSpace).length < fuel := by
          have := (@List.dropWhile_sublist Char cs pyIsSpace).length_le
          simp only [List.length_cons] at hfuel
          omega
        rw [ih (cs.dropWhile pyIsSpace).length hlen (cs.dropWhile pyIsSpace) rfl false []]
        simp only [List.reverse_nil, List.nil_append]
        have hcws : pyIsSpace c := by
          rcases Bool.and_eq_true_iff.mp hb with ⟨h1, _⟩
          exact (Bool.and_eq_true_iff.mp h1).2
        have hdecomp : c :: cs = (c :: cs.takeWhile pyIsSpace) ++ cs.dropWhile pyIsSpace := by
          simp [List.takeWhile_append_dropWhile]
        rw [hdecomp, ← List.append_assoc, wcAux_append]
        have hws : ∀ d ∈ (c :: cs.takeWhile pyIsSpace), pyIsSpace d := by
          intro d hd
          rcases List.mem_cons.mp hd with h | h
          · subst h; exact hcws
          · exact List.mem_takeWhile_imp h
        rw [wcAux_append, wcAux_allWs _ hws, wsState_append,
            wsState_allWs _ hws (by simp)]
        unfold wordCount
        omega
      · rw [splitAux_cons_neg prev c cs curr hb]
        subst hfuel
        rw [ih cs.length (by simp) cs rfl _ (c :: curr)]
        simp [List.append_assoc]

theorem wcSum_splitSentences (l : List Char) :
    ((splitSentences l).map wordCount).sum = wordCount l := by
  unfold splitSentences
  rw [wcSum_splitAux l false []]
  simp [wordCount]

theorem formLoop_eq (l : List (List Char)) : ∀ (i : Nat) (paras : List (List Char)),
    i % 3 = 1 → formLoop i l [] paras = paras ++ (chunkList 3 l).map joinSp := by
  generalize hfuel : l.length = fuel
  induction fuel using Nat.strong_induction_on generalizing l with
  | _ fuel ih =>
    intro i paras hi
    rcases l with _ | ⟨a, _ | ⟨b, _ | ⟨c, rest⟩⟩⟩
    · simp [formLoop, chunkList_nil]
    · rw [formLoop, if_neg (by omega), formLoop, if_neg (by simp)]
      rw [chunkList_cons 3 (by omega)]
      simp [chunkList_nil, joinSp]
    · rw [formLoop, if_neg (by omega), formLoop, if_neg (by omega),
          formLoop, if_neg (by simp)]
      rw [chunkList_cons 3 (by omega)]
      simp [chunkList_nil, joinSp]
    · rw [formLoop, if_neg (by omega), formLoop, if_neg (by omega),
          formLoop, if_pos (by omega)]
      subst hfuel
      rw [ih rest.length (by simp only [List.length_cons]; omega) rest rfl (i + 3) _ (by omega)]
      rw [chunkList_cons 3 (by omega)]
      simp [List.append_assoc]

theorem format_summary_eq (s : List Char) :
    format_summary_to_paragraphs s
      = pyJoin nl2 ((chunkList 3 (splitSentences (pyStrip s))).map joinSp) := by
  unfold format_summary_to_paragraphs
  rw [formLoop_eq _ 1 [] (by omega)]
  simp

/-! ### `str.replace` and word-count invariance -/

theorem replaceAll_nil (pat rep : List Char) : replaceAll pat rep [] = [] := by
  rw [replaceAll]

theorem replaceAll_cons_pos (pat rep : List Char) (c : Char) (cs : List Char)
    (h : pat.isPrefixOf (c :: cs) ∧ pat ≠ []) :
    replaceAll pat rep (c :: cs)
      = rep ++ replaceAll pat rep ((c :: cs).drop pat.length) := by
  rw [replaceAll, if_pos h]

theorem replaceAll_cons_neg (pat rep : List Char) (c : Char) (cs : List Char)
    (h : ¬ (pat.isPrefixOf (c :: cs) ∧ pat ≠ [])) :
    replaceAll pat rep (c :: cs) = c :: replaceAll pat rep cs := by
  rw [replaceAll, if_neg h]

theorem isPrefixOf_drop_append (pat : List Char) : ∀ (l : List Char),
    pat.isPrefixOf l = true → pat ++ l.drop pat.length = l := by
  induction pat with
  | nil => intro l _; rfl
  | cons p ps ih =>
    intro l h
    rcases l with _ | ⟨c, cs⟩
    · simp [List.isPrefixOf] at h
    · simp only [List.isPrefixOf] at h
      rcases Bool.and_eq_true_iff.mp h with ⟨hpc, hrest⟩
      have hpc2 : p = c := eq_of_beq hpc
      subst hpc2
      simp only [List.length_cons, List.drop_succ_cons, List.cons_append]
      rw [ih cs hrest]

theorem wcAux_replaceAll (pat rep : List Char)
    (hpat : ∀ c ∈ pat, pyIsSpace c) (hpne : pat ≠ [])
    (hrep : ∀ c ∈ rep, pyIsSpace c) (hrne : rep ≠ []) (l : List Char) :
    ∀ s, wcAux (replaceAll pat rep l) s = wcAux l s := by
  generalize hfuel : l.length = fuel
  induction fuel using Nat.strong_induction_on generalizing l with
  | _ fuel ih =>
    intro s
    rcases l with _ | ⟨c, cs⟩
    · rw [replaceAll_nil]
    · by_cases hp : pat.isPrefixOf (c :: cs) ∧ pat ≠ []
      · rw [replaceAll_cons_pos pat rep c cs hp]
        have hdec : pat ++ (c :: cs).drop pat.length = c :: cs :=
          isPrefixOf_drop_append pat (c :: cs) hp.1
        have hplen : 0 < pat.length := List.length_pos.mpr hpne
        have hlen : ((c :: cs).drop pat.length).length < fuel := by
          simp only [List.length_drop, List.length_cons] at *
          omega
        rw [wcAux_ws_left rep _ hrep hrne,
            ih ((c :: cs).drop pat.length).length hlen _ rfl true]
        conv_rhs => rw [← hdec]
        rw [wcAux_ws_left pat _ hpat hpne]
      · rw [replaceAll_cons_neg pat rep c cs hp]
        show (if ¬ pyIsSpace c ∧ s then 1 else 0) + wcAux (replaceAll pat rep cs) (pyIsSpace c)
          = (if ¬ pyIsSpace c ∧ s then 1 else 0) + wcAux cs (pyIsSpace c)
        subst hfuel
        rw [ih cs.length (by simp) cs rfl (pyIsSpace c)]

/-! ### The remote summarizer client (`api/utils/summarizer.py`) -/

/-- Parsed JSON values, as returned by `response.json()`. -/
inductive Json where
  | jnull
  | jbool (b : Bool)
  | jnum (n : Int)
  | jstr (s : List Char)
  | jarr (elems : List Json)
  | jobj (fields : List (List Char × Json))

/-- Python `==` between a JSON element and a string (used by `in` on lists):
a string equals `key` iff it is that string; non-strings never equal it. -/
def jsonStrEq : Json → List Char → Bool
  | .jstr s, key => s = key
  | _, _ => false

/-- Test that `key` occurs as a contiguous substring of `s` (Python `key in str`). -/
def isSubstringOf (key s : List Char) : Bool :=
  s.tails.any (fun t => key.isPrefixOf t)

/-- Python `key in x` for a JSON value `x`: key lookup on mappings,
substring test on strings, membership on lists; a `TypeError` (modelled
as `.error ()`) on values that do not support `in`. -/
def pyContains (key : List Char) : Json → Except Unit Bool
  | .jobj fields => .ok (fields.any (fun f => f.1 = key))
  | .jstr s => .ok (isSubstringOf key s)
  | .jarr xs => .ok (xs.any (fun e => jsonStrEq e key))
  | _ => .error ()

/-- Python `x[key]` for a string key: mapping lookup (`KeyError` when
absent), `TypeError` on any non-mapping. -/
def pySubscript (j : Json) (key : List Char) : Except Unit Json :=
  match j with
  | .jobj fields =>
    match fields.lookup key with
    | some v => .ok v
    | none => .error ()
  | _ => .error ()

/-- The key `"summary_text"` expected in the first element of the
HF response body. -/
def summaryKey : List Char := "summary_text".data

/-- Outcome of one `client.post` call as seen by the pipeline. -/
inductive CallResult where
  | timeout
  | response (status : Nat) (body : Json) (text : List Char)

/-- The Python exceptions the per-chunk `try` block can leave with. -/
inductive PyErr where
  | keyError
  | rateLimit
  | unavailable
  | apiError (status : Nat) (text : List Char)
  | timeoutErr (chunkNum totalChunks : Nat)
  | malformed (raw : Json)
  | typeErr

/-- The user-facing message attached to each raised exception in
`summarize_text_async` / `summarize_text_streaming`. -/
def pyErrMessage : PyErr → List Char
  | .keyError => "HF_API_TOKEN environment variable not set".data
  | .rateLimit => "Rate limit exceeded. Please try again later.".data
  | .unavailable => "Hugging Face API is temporarily unavailable. Please try again.".data
  | .apiError st text => "API error: ".data ++ (toString st).data ++ " - ".data ++ text
  | .timeoutErr k n => "Timeout while processing chunk ".data ++ (toString k).data
      ++ "/".data ++ (toString n).data
  | .malformed _ => "Unexpected HF API response format".data
  | .typeErr => "TypeError".data

/-- Python `response.raise_for_status()` raises exactly on non-2xx statuses. -/
def is2xx (status : Nat) : Bool := 200 ≤ status && status < 300

/-- The body of the per-chunk `try` block of `summarize_text_async`
(chunk index `i`, `total` chunks): issue the call, map HTTP statuses
429/503/other to their errors, a timeout to a chunk-indexed timeout
error, validate the JSON shape, and append the summary string
(`summary += result[0]["summary_text"] + " "`, which is a `TypeError`
unless the looked-up value is a string). -/
def processChunkAsync (r : CallResult) (i total : Nat) : Except PyErr (List Char) :=
  match r with
  | .timeout => .error (.timeoutErr (i + 1) total)
  | .response status body text =>
    if is2xx status then
      match body with
      | .jarr (x :: _) =>
        match pyContains summaryKey x with
        | .error _ => .error .typeErr
        | .ok true =>
          match pySubscript x summaryKey with
          | .ok (.jstr s) => .ok s
          | .ok _ => .error .typeErr
          | .error _ => .error .typeErr
        | .ok false => .error (.malformed body)
      | _ => .error (.malformed body)
    else
      if status = 429 then .error .rateLimit
      else if status = 503 then .error .unavailable
      else .error (.apiError status text)

/-- The per-chunk `try` block of `summarize_text_streaming`: identical
status and shape handling, but the raw looked-up summary value is
yielded as-is (`summary = result[0]["summary_text"]`), so a non-string
value is passed through rather than failing here. -/
def processChunkStream (r : CallResult) (i total : Nat) : Except PyErr Json :=
  match r with
  | .timeout => .error (.timeoutErr (i + 1) total)
  | .response status body text =>
    if is2xx status then
      match body with
      | .jarr (x :: _) =>
        match pyContains summaryKey x with
        | .error _ => .error .typeErr
        | .ok true =>
          match pySubscript x summaryKey with
          | .ok v => .ok v
          | .error _ => .error .typeErr
        | .ok false => .error (.malformed body)
      | _ => .error (.malformed body)
    else
      if status = 429 then .error .rateLimit
      else if status = 503 then .error .unavailable
      else .error (.apiError status text)

/-- Python truthiness of `os.getenv("HF_API_TOKEN")`:
`not api_token` is true when the variable is unset or empty. -/
def tokenFalsy : Option (List Char) → Bool
  | none => true
  | some t => t = []

/-- The chunk loop of `summarize_text_async`: accumulates
`summary += result[0]["summary_text"] + " "` per chunk, aborts at the
first failing chunk. Returns the result together with the number of
remote calls issued. -/
def asyncLoop (call : Nat → CallResult) (total : Nat) :
    Nat → List (List Char) → List Char → Except PyErr (List Char) × Nat
  | _, [], acc => (.ok acc, 0)
  | i, _chunk :: rest, acc =>
    match processChunkAsync (call i) i total with
    | .ok s =>
      let r := asyncLoop call total (i + 1) rest (acc ++ s ++ [' '])
      (r.1, r.2 + 1)
    | .error e => (.error e, 1)

/-- Function `summarize_text_async` from `api/utils/summarizer.py`: check the
credential, chunk the text, drive the chunk loop, and return
`summary.strip()`. The remote service is abstracted as the oracle
`call : Nat → CallResult` giving chunk `i`'s HTTP outcome; the second
component counts remote calls issued. -/
def summarize_text_async (token : Option (List Char)) (text : List Char)
    (call : Nat → CallResult) (max_chunk_size : Nat) :
    Except PyErr (List Char) × Nat :=
  if tokenFalsy token then (.error .keyError, 0)
  else
    let chunks := chunkText text max_chunk_size
    let r := asyncLoop call chunks.length 0 chunks []
    (r.1.map pyStrip, r.2)

/-- Events yielded by `summarize_text_streaming`. -/
inductive InnerEvent where
  | chunk_start (chunk_index total_chunks : Nat)
  | chunk_complete (chunk_index : Nat) (summary : Json) (total_chunks : Nat)

/-- The chunk loop of `summarize_text_streaming`: yields `chunk_start`,
issues the call, yields `chunk_complete` on success, or ends the
generator with a raised exception. Returns the yielded events, the
raised exception if any, and the number of remote calls issued. -/
def streamLoop (call : Nat → CallResult) (total : Nat) :
    Nat → List (List Char) → List InnerEvent × Option PyErr × Nat
  | _, [] => ([], none, 0)
  | i, _chunk :: rest =>
    match processChunkStream (call i) i total with
    | .ok v =>
      let r := streamLoop call total (i + 1) rest
      (.chunk_start i total :: .chunk_complete i v total :: r.1, r.2.1, r.2.2 + 1)
    | .error e => ([.chunk_start i total], some e, 1)

/-- Function `summarize_text_streaming` from `api/utils/summarizer.py`:
credential check (raised before the first yield), chunking, and the
streaming chunk loop. -/
def summarize_text_streaming (token : Option (List Char)) (text : List Char)
    (call : Nat → CallResult) (max_chunk_size : Nat) :
    List InnerEvent × Option PyErr × Nat :=
  if tokenFalsy token then ([], some .keyError, 0)
  else
    let chunks := chunkText text max_chunk_size
    streamLoop call chunks.length 0 chunks

/-! ### The SSE generator (`api/streaming.py`) -/

/-- What the single `except` clause of the generator reports in its terminal
`error` event (the message is `f"Error: {str(e)}"`). -/
inductive ErrCause where
  | extractionFailed (msg : List Char)
  | noTextFound
  | exc (e : PyErr)
  | joinTypeErr

/-- Events yielded by `summarize_stream_generator`. -/
inductive Event where
  | extraction_started
  | extraction_complete (word_count : Nat) (preview : List Char)
  | chunk_processing (chunk_index total_chunks : Nat)
  | chunk_complete (chunk_index total_chunks : Nat) (summary : Json)
  | formatting
  | complete (summary formatted : List Char)
  | error (cause : ErrCause)

/-- Python `text[:500] + ("..." if len(text) > 500 else "")`. -/
def preview500 (text : List Char) : List Char :=
  pySlice text 0 500 ++ (if 500 < text.length then "...".data else [])

/-- How the generator translates each inner summarizer event
(`chunk_start` ↦ `chunk_processing`, `chunk_complete` ↦ `chunk_complete`). -/
def mapInnerEvent : InnerEvent → Event
  | .chunk_start i total => .chunk_processing i total
  | .chunk_complete i v total => .chunk_complete i total v

/-- List `summary_parts`: the summaries collected from `chunk_complete`
events, in order. -/
def collectParts (evs : List InnerEvent) : List Json :=
  evs.filterMap (fun e => match e with
    | .chunk_complete _ v _ => some v
    | _ => none)

/-- Python `" ".join(summary_parts)` succeeds iff every part is a string
(otherwise Python raises `TypeError`). -/
def allStrings : List Json → Option (List (List Char))
  | [] => some []
  | .jstr s :: rest => (allStrings rest).map (fun r => s :: r)
  | _ :: _ => none

/-- The environment of the generator: the extraction outcome for the
uploaded bytes, the credential, and the per-chunk HTTP oracle. -/
structure StreamEnv where
  extract : Except (List Char) (List Char)
  token : Option (List Char)
  call : Nat → CallResult

/-- Function `summarize_stream_generator` from `api/streaming.py`: yield
`extraction_started`; extract (an extraction exception becomes a
terminal `error` event); empty text yields a terminal `error`; then
`extraction_complete`, the mapped summarizer events, and either a
terminal `error` (summarizer exception), or `formatting` followed by
`complete` — or a terminal `error` if `" ".join` fails. The summarizer
runs with the default `max_chunk_size = 1000`. -/
def summarize_stream_generator (env : StreamEnv) : List Event :=
  Event.extraction_started ::
  match env.extract with
  | .error msg => [.error (.extractionFailed msg)]
  | .ok text =>
    if pyStrip text = [] then [.error .noTextFound]
    else
      Event.extraction_complete (wordCount text) (preview500 text) ::
      (let r := summarize_text_streaming env.token text env.call 1000
      r.1.map mapInnerEvent ++
      match r.2.1 with
      | some e => [.error (.exc e)]
      | none =>
        Event.formatting ::
        match allStrings (collectParts r.1) with
        | some parts =>
          [Event.complete (joinSp parts) (format_summary_to_paragraphs (joinSp parts))]
        | none => [.error .joinTypeErr])

/-! ### Usage tracker (`api/utils/usage_tracker.py`) and endpoints
(`api/summarize.py`) -/

/-- Field `UsageTracker.usage`, a `defaultdict(int)` keyed by month. -/
def Usage : Type := List Char → Nat

/-- Method `UsageTracker.track`: `self.usage[month_key] += char_count` for the
current month key. -/
def track (month : List Char) (char_count : Nat) (usage : Usage) : Usage :=
  fun k => if k = month then usage k + char_count else usage k

/-- Method `UsageTracker.get_remaining`:
`max(0, self.monthly_limit - self.usage.get(month_key, 0))`. -/
def get_remaining (monthly_limit : Nat) (month : List Char) (usage : Usage) : Int :=
  max 0 ((monthly_limit : Int) - (usage month : Int))

/-- Method `UsageTracker.is_quota_exceeded`: `self.get_remaining() == 0`. -/
def is_quota_exceeded (monthly_limit : Nat) (month : List Char) (usage : Usage) : Bool :=
  get_remaining monthly_limit month usage = 0

/-- Result of the blocking endpoint, as far as the claims are
concerned: an `HTTPException` status or the success payload. -/
inductive EndpointResult where
  | httpError (status : Nat)
  | response (summary formatted : List Char)

/-- The blocking `POST /api/summarize` handler (`summarize_endpoint`),
reduced to the state it threads: file-type check, size check, quota
check, extraction (empty text rejected), `usage_tracker.track(len(text))`,
then the blocking summarizer and formatter. Returns the updated usage
mapping and the outcome; every summarizer exception is turned into an
HTTP 500/504-style error response without touching the tracker again. -/
def summarize_endpoint (month : List Char) (monthly_limit : Nat) (usage : Usage)
    (isPdf : Bool) (fileSize maxSize : Nat)
    (extract : Except (List Char) (List Char))
    (token : Option (List Char)) (call : Nat → CallResult) :
    Usage × EndpointResult :=
  if ¬ isPdf then (usage, .httpError 400)
  else if maxSize < fileSize then (usage, .httpError 400)
  else if is_quota_exceeded monthly_limit month usage then (usage, .httpError 429)
  else
    match extract with
    | .error _ => (usage, .httpError 500)
    | .ok text =>
      if pyStrip text = [] then (usage, .httpError 400)
      else
        let usage2 := track month text.length usage
        match (summarize_text_async token text call 1000).1 with
        | .error _ => (usage2, .httpError 500)
        | .ok summary =>
          (usage2, .response summary (format_summary_to_paragraphs summary))

/-- Result of the streaming `POST /api/summarize-stream` handler: an
early `HTTPException` or the `EventSourceResponse` wrapping the
event stream of the generator. -/
inductive StreamEndpointResult where
  | httpError (status : Nat)
  | events (evs : List Event)

/-- The streaming endpoint (`summarize_stream_endpoint`): file-type,
size and quota checks, then it hands the generator to
`EventSourceResponse`. It never calls `usage_tracker.track`, so the
usage mapping is returned unchanged on every path. -/
def summarize_stream_endpoint (month : List Char) (monthly_limit : Nat) (usage : Usage)
    (isPdf : Bool) (fileSize maxSize : Nat) (env : StreamEnv) :
    Usage × StreamEndpointResult :=
  if ¬ isPdf then (usage, .httpError 400)
  else if maxSize < fileSize then (usage, .httpError 400)
  else if is_quota_exceeded monthly_limit month usage then (usage, .httpError 429)
  else (usage, .events (summarize_stream_generator env))

/-! ### Per-call classification used by the claims -/

/-- The summary string of a fully well-formed call result (2xx, body a
non-empty list whose first element is a mapping holding a string under
`summary_text`). -/
def callSummary (r : CallResult) : List Char :=
  match r with
  | .response _ (.jarr (.jobj fs :: _)) _ =>
    match fs.lookup summaryKey with
    | some (.jstr s) => s
    | _ => []
  | _ => []

/-- A call result on which both pipelines succeed and extract a string
summary. -/
def isGoodStrCall (r : CallResult) : Bool :=
  match r with
  | .response st (.jarr (.jobj fs :: _)) _ =>
    is2xx st && (match fs.lookup summaryKey with
      | some (.jstr _) => true
      | _ => false)
  | _ => false

/-- The failure notion of the claims for one remote call: HTTP error status,
per-call timeout, or malformed response body (not a non-empty list
whose first element contains a `summary_text` field). -/
def isClaimFailure (r : CallResult) : Bool :=
  match r with
  | .timeout => true
  | .response st body _ =>
    !(is2xx st) ||
    (match body with
     | .jarr (x :: _) =>
       (match pyContains summaryKey x with
        | .ok true => false
        | _ => true)
     | _ => true)

theorem lookup_any {β : Type} (fs : List (List Char × β)) (k : List Char) (v : β)
    (h : fs.lookup k = some v) : (fs.any (fun f => f.1 = k)) = true := by
  induction fs with
  | nil => simp [List.lookup] at h
  | cons f rest ih =>
    rcases f with ⟨a, b⟩
    rw [List.lookup] at h
    cases hba : (k == a) with
    | false =>
      simp only [hba] at h
      simp only [List.any_cons, Bool.or_eq_true]
      right
      exact ih h
    | true =>
      have hka : k = a := eq_of_beq hba
      simp only [List.any_cons, Bool.or_eq_true]
      left
      simp [hka]

theorem processChunk_good (r : CallResult) (i total : Nat)
    (h : isGoodStrCall r = true) :
    processChunkAsync r i total = .ok (callSummary r)
      ∧ processChunkStream r i total = .ok (.jstr (callSummary r)) := by
  rcases r with _ | ⟨st, body, text⟩
  · simp [isGoodStrCall] at h
  · rcases body with _ | _ | _ | _ | ⟨elems⟩ | _ <;>
      simp only [isGoodStrCall] at h
    · exact absurd h (by simp)
    · exact absurd h (by simp)
    · exact absurd h (by simp)
    · exact absurd h (by simp)
    · rcases elems with _ | ⟨x, rest⟩
      · exact absurd h (by simp)
      · rcases x with _ | _ | _ | _ | _ | ⟨fs⟩
        · exact absurd h (by simp)
        · exact absurd h (by simp)
        · exact absurd h (by simp)
        · exact absurd h (by simp)
        · exact absurd h (by simp)
        · rcases Bool.and_eq_true_iff.mp h with ⟨h2xx, hlk⟩
          rcases hv : fs.lookup summaryKey with _ | v
          · rw [hv] at hlk; simp at hlk
          · rcases v with _ | _ | _ | ⟨s⟩ | _ | _ <;> rw [hv] at hlk <;>
              try simp at hlk
            have hany := lookup_any fs summaryKey _ hv
            constructor
            · simp only [processChunkAsync, if_pos h2xx, pyContains, hany,
                pySubscript, hv, callSummary]
            · simp only [processChunkStream, if_pos h2xx, pyContains, hany,
                pySubscript, hv, callSummary]
    · exact absurd h (by simp)

theorem processChunk_fail (r : CallResult) (i total : Nat)
    (h : isClaimFailure r = true) :
    (∃ e, processChunkAsync r i total = .error e)
      ∧ (∃ e, processChunkStream r i total = .error e) := by
  rcases r with _ | ⟨st, body, text⟩
  · exact ⟨⟨_, rfl⟩, ⟨_, rfl⟩⟩
  · simp only [isClaimFailure, Bool.or_eq_true, Bool.not_eq_true'] at h
    by_cases h2 : is2xx st = true
    · rcases h with h | h
      · rw [h2] at h; cases h
      · rcases body with _ | _ | _ | _ | ⟨elems⟩ | _
        · simp only [processChunkAsync, processChunkStream, if_pos h2]
          exact ⟨⟨_, rfl⟩, ⟨_, rfl⟩⟩
        · simp only [processChunkAsync, processChunkStream, if_pos h2]
          exact ⟨⟨_, rfl⟩, ⟨_, rfl⟩⟩
        · simp only [processChunkAsync, processChunkStream, if_pos h2]
          exact ⟨⟨_, rfl⟩, ⟨_, rfl⟩⟩
        · simp only [processChunkAsync, processChunkStream, if_pos h2]
          exact ⟨⟨_, rfl⟩, ⟨_, rfl⟩⟩
        · rcases elems with _ | ⟨x, rest⟩
          · simp only [processChunkAsync, processChunkStream, if_pos h2]
            exact ⟨⟨_, rfl⟩, ⟨_, rfl⟩⟩
          · simp only [processChunkAsync, processChunkStream, if_pos h2]
            simp only [] at h
            rcases hc : pyContains summaryKey x with _ | b
            · exact ⟨⟨_, rfl⟩, ⟨_, rfl⟩⟩
            · rcases b with _ | _
              · exact ⟨⟨_, rfl⟩, ⟨_, rfl⟩⟩
              · rw [hc] at h
                simp at h
        · simp only [processChunkAsync, processChunkStream, if_pos h2]
          exact ⟨⟨_, rfl⟩, ⟨_, rfl⟩⟩
    · simp only [processChunkAsync, processChunkStream, if_neg h2]
      by_cases h429 : st = 429
      · rw [if_pos h429, if_pos h429]
        exact ⟨⟨_, rfl⟩, ⟨_, rfl⟩⟩
      · rw [if_neg h429, if_neg h429]
        by_cases h503 : st = 503
        · rw [if_pos h503, if_pos h503]
          exact ⟨⟨_, rfl⟩, ⟨_, rfl⟩⟩
        · rw [if_neg h503, if_neg h503]
          exact ⟨⟨_, rfl⟩, ⟨_, rfl⟩⟩

theorem asyncLoop_good (call : Nat → CallResult) (total : Nat)
    (chunks : List (List Char)) : ∀ (i : Nat) (acc : List Char),
    (∀ j, j < chunks.length → isGoodStrCall (call (i + j)) = true) →
    asyncLoop call total i chunks acc
      = (.ok (acc ++ ((List.range' i chunks.length).map
            (fun j => callSummary (call j) ++ [' '])).flatten),
         chunks.length) := by
  induction chunks with
  | nil =>
    intro i acc _
    simp [asyncLoop]
  | cons c rest ih =>
    intro i acc h
    have h0 : isGoodStrCall (call i) = true := by
      have := h 0 (by simp)
      simpa using this
    have ihg := ih (i + 1) (acc ++ callSummary (call i) ++ [' '])
      (fun j hj => by
        have := h (j + 1) (by simp only [List.length_cons]; omega)
        have heq : i + (j + 1) = i + 1 + j := by omega
        rw [heq] at this
        exact this)
    simp only [asyncLoop, (processChunk_good (call i) i total h0).1, ihg]
    simp only [List.length_cons, List.range'_succ, List.map_cons, List.flatten_cons]
    simp [List.append_assoc]

theorem asyncLoop_fail (call : Nat → CallResult) (total : Nat) (k : Nat)
    (hfail : isClaimFailure (call k) = true)
    (hgood : ∀ j, j < k → isGoodStrCall (call j) = true)
    (chunks : List (List Char)) : ∀ (i : Nat) (acc : List Char),
    i ≤ k → k < i + chunks.length →
    (asyncLoop call total i chunks acc).2 = k + 1 - i
      ∧ ∃ e, (asyncLoop call total i chunks acc).1 = .error e := by
  induction chunks with
  | nil =>
    intro i acc hik hk
    simp at hk
    omega
  | cons c rest ih =>
    intro i acc hik hk
    rcases Nat.eq_or_lt_of_le hik with heq | hlt
    · subst heq
      obtain ⟨e, he⟩ := (processChunk_fail (call i) i total hfail).1
      simp only [asyncLoop, he]
      exact ⟨by omega, ⟨e, rfl⟩⟩
    · have hgi : isGoodStrCall (call i) = true := hgood i hlt
      have ihg := ih (i + 1) (acc ++ callSummary (call i) ++ [' '])
        (by omega) (by simp only [List.length_cons] at hk; omega)
      simp only [asyncLoop, (processChunk_good (call i) i total hgi).1]
      obtain ⟨hcount, e, he⟩ := ihg
      constructor
      · show (asyncLoop call total (i + 1) rest
            (acc ++ callSummary (call i) ++ [' '])).2 + 1 = k + 1 - i
        rw [hcount]
        omega
      · exact ⟨e, show (asyncLoop call total (i + 1) rest
            (acc ++ callSummary (call i) ++ [' '])).1 = .error e from he⟩

/-- The per-chunk inner event pair yielded on success. -/
def innerPair (call : Nat → CallResult) (total : Nat) (j : Nat) : List InnerEvent :=
  [.chunk_start j total, .chunk_complete j (.jstr (callSummary (call j))) total]

theorem streamLoop_good (call : Nat → CallResult) (total : Nat)
    (chunks : List (List Char)) : ∀ (i : Nat),
    (∀ j, j < chunks.length → isGoodStrCall (call (i + j)) = true) →
    streamLoop call total i chunks
      = ((List.range' i chunks.length).flatMap (innerPair call total),
         none, chunks.length) := by
  induction chunks with
  | nil =>
    intro i _
    simp [streamLoop]
  | cons c rest ih =>
    intro i h
    have h0 : isGoodStrCall (call i) = true := by
      have := h 0 (by simp)
      simpa using this
    have ihg := ih (i + 1) (fun j hj => by
      have := h (j + 1) (by simp only [List.length_cons]; omega)
      have heq : i + (j + 1) = i + 1 + j := by omega
      rw [heq] at this
      exact this)
    simp only [streamLoop, (processChunk_good (call i) i total h0).2, ihg]
    simp only [List.length_cons, List.range'_succ, List.flatMap_cons]
    simp [innerPair]

theorem streamLoop_fail (call : Nat → CallResult) (total : Nat) (k : Nat)
    (hfail : isClaimFailure (call k) = true)
    (hgood : ∀ j, j < k → isGoodStrCall (call j) = true)
    (chunks : List (List Char)) : ∀ (i : Nat),
    i ≤ k → k < i + chunks.length →
    (streamLoop call total i chunks).1
        = (List.range' i (k - i)).flatMap (innerPair call total)
          ++ [.chunk_start k total]
      ∧ (∃ e, (streamLoop call total i chunks).2.1 = some e)
      ∧ (streamLoop call total i chunks).2.2 = k + 1 - i := by
  induction chunks with
  | nil =>
    intro i hik hk
    simp at hk
    omega
  | cons c rest ih =>
    intro i hik hk
    rcases Nat.eq_or_lt_of_le hik with heq | hlt
    · subst heq
      obtain ⟨e, he⟩ := (processChunk_fail (call i) i total hfail).2
      simp only [streamLoop, he]
      refine ⟨by simp, ⟨e, rfl⟩, by omega⟩
    · have hgi : isGoodStrCall (call i) = true := hgood i hlt
      have ihg := ih (i + 1) (by omega) (by simp only [List.length_cons] at hk; omega)
      obtain ⟨hevs, ⟨e, he⟩, hcount⟩ := ihg
      simp only [streamLoop, (processChunk_good (call i) i total hgi).2]
      refine ⟨?_, ⟨e, he⟩, ?_⟩
      · show InnerEvent.chunk_start i total
            :: InnerEvent.chunk_complete i (.jstr (callSummary (call i))) total
            :: (streamLoop call total (i + 1) rest).1 = _
        rw [hevs]
        have hrng : List.range' i (k - i) = i :: List.range' (i + 1) (k - (i + 1)) := by
          have : k - i = (k - (i + 1)) + 1 := by omega
          rw [this, List.range'_succ]
        rw [hrng]
        simp [innerPair]
      · show (streamLoop call total (i + 1) rest).2.2 + 1 = k + 1 - i
        rw [hcount]
        omega

/-! ### Event signatures and the ideal progressive trace (claim C1) -/

/-- The kind of a progressive event. -/
inductive EventKind where
  | extraction_started
  | extraction_complete
  | chunk_processing
  | chunk_complete
  | formatting
  | complete
  | error
deriving DecidableEq

/-- Kind of an event together with its chunk index (for chunk events). -/
def eventSig : Event → EventKind × Option Nat
  | .extraction_started => (.extraction_started, none)
  | .extraction_complete _ _ => (.extraction_complete, none)
  | .chunk_processing i _ => (.chunk_processing, some i)
  | .chunk_complete i _ _ => (.chunk_complete, some i)
  | .formatting => (.formatting, none)
  | .complete _ _ => (.complete, none)
  | .error _ => (.error, none)

/-- Signature of the `(chunk_processing, chunk_complete)` pair for
chunk `j`. -/
def pairSig (j : Nat) : List (EventKind × Option Nat) :=
  [(.chunk_processing, some j), (.chunk_complete, some j)]

/-- The full event-signature sequence of a successful progressive run
over `n` chunks. -/
def idealSig (n : Nat) : List (EventKind × Option Nat) :=
  (.extraction_started, none) :: (.extraction_complete, none) ::
    ((List.range n).flatMap pairSig ++ [(.formatting, none), (.complete, none)])

/-- Number of chunks the generator will process for its environment. -/
def envChunkCount (env : StreamEnv) : Nat :=
  match env.extract with
  | .ok text => (chunkText text 1000).length
  | .error _ => 0

theorem innerPair_sig (call : Nat → CallResult) (total : Nat) (j : Nat) :
    (innerPair call total j).map (fun e => eventSig (mapInnerEvent e)) = pairSig j := by
  simp [innerPair, mapInnerEvent, eventSig, pairSig]

theorem streamLoop_sig_none (call : Nat → CallResult) (total : Nat)
    (chunks : List (List Char)) : ∀ (i : Nat),
    (streamLoop call total i chunks).2.1 = none →
    ((streamLoop call total i chunks).1.map (fun e => eventSig (mapInnerEvent e)))
      = (List.range' i chunks.length).flatMap pairSig := by
  induction chunks with
  | nil => intro i _; simp [streamLoop]
  | cons c rest ih =>
    intro i herr
    rcases hpc : processChunkStream (call i) i total with e | v
    · simp only [streamLoop, hpc] at herr
      cases herr
    · simp only [streamLoop, hpc] at herr ⊢
      rw [List.map_cons, List.map_cons, ih (i + 1) herr]
      simp only [List.length_cons, List.range'_succ, List.flatMap_cons]
      simp [mapInnerEvent, eventSig, pairSig]

theorem streamLoop_sig_some (call : Nat → CallResult) (total : Nat)
    (chunks : List (List Char)) : ∀ (i : Nat) (e : PyErr),
    (streamLoop call total i chunks).2.1 = some e →
    ∃ m, m < chunks.length ∧
      ((streamLoop call total i chunks).1.map (fun ev => eventSig (mapInnerEvent ev)))
        = (List.range' i m).flatMap pairSig ++ [(.chunk_processing, some (i + m))] := by
  induction chunks with
  | nil =>
    intro i e herr
    simp [streamLoop] at herr
  | cons c rest ih =>
    intro i e herr
    rcases hpc : processChunkStream (call i) i total with e2 | v
    · refine ⟨0, by simp, ?_⟩
      simp only [streamLoop, hpc]
      simp [mapInnerEvent, eventSig]
    · simp only [streamLoop, hpc] at herr ⊢
      obtain ⟨m, hm, hsig⟩ := ih (i + 1) e herr
      refine ⟨m + 1, by simp only [List.length_cons]; omega, ?_⟩
      rw [List.map_cons, List.map_cons, hsig]
      rw [List.range'_succ, List.flatMap_cons]
      simp only [mapInnerEvent, eventSig, pairSig]
      have : i + (m + 1) = i + 1 + m := by omega
      rw [this]
      simp

theorem idealSig_eq_append (n : Nat) :
    idealSig n = [((.extraction_started : EventKind), (none : Option Nat)),
      (.extraction_complete, none)]
      ++ ((List.range n).flatMap pairSig ++ [(.formatting, none), (.complete, none)]) := rfl

theorem prefix_es (n : Nat) :
    [((.extraction_started : EventKind), (none : Option Nat))] <+: idealSig n := by
  rw [idealSig_eq_append]
  exact ⟨_, rfl⟩

theorem prefix_es_ec (n : Nat) :
    [((.extraction_started : EventKind), (none : Option Nat)),
      (.extraction_complete, none)] <+: idealSig n := by
  rw [idealSig_eq_append]
  exact ⟨_, rfl⟩

theorem range_flatMap_split (m n : Nat) (h : m ≤ n) :
    (List.range n).flatMap pairSig
      = (List.range' 0 m).flatMap pairSig ++ (List.range' m (n - m)).flatMap pairSig := by
  rw [List.range_eq_range', ← List.flatMap_append]
  congr 1
  have := List.range'_append 0 m (n - m) 1
  simp only [Nat.one_mul, Nat.zero_add] at this
  rw [this]
  congr 1
  omega

theorem prefix_upto_chunk (m n : Nat) (h : m < n) :
    [((.extraction_started : EventKind), (none : Option Nat)),
        (.extraction_complete, none)]
      ++ ((List.range' 0 m).flatMap pairSig ++ [(.chunk_processing, some m)])
      <+: idealSig n := by
  rw [idealSig_eq_append]
  apply (List.prefix_append_right_inj _).mpr
  rw [range_flatMap_split m n (by omega), List.append_assoc]
  apply (List.prefix_append_right_inj _).mpr
  have hnm : n - m = (n - m - 1) + 1 := by omega
  rw [hnm, List.range'_succ, List.flatMap_cons]
  exact ⟨_, rfl⟩

theorem prefix_upto_formatting (n : Nat) :
    [((.extraction_started : EventKind), (none : Option Nat)),
        (.extraction_complete, none)]
      ++ ((List.range n).flatMap pairSig ++ [(.formatting, none)])
      <+: idealSig n := by
  rw [idealSig_eq_append]
  apply (List.prefix_append_right_inj _).mpr
  apply (List.prefix_append_right_inj _).mpr
  exact ⟨[(.complete, none)], rfl⟩

/-- Claim C1: for every run of `summarize_stream_generator`, the emitted
event signatures are exactly `extraction_started, extraction_complete,
(chunk_processing i, chunk_complete i) for i = 0..n-1, formatting,
complete` — or a proper prefix of that sequence followed by a single
terminal `error` event, so an `error` event is always the last event
and no event of any kind follows it. -/
theorem claim_C1_progressive_event_order (env : StreamEnv) :
    (summarize_stream_generator env).map eventSig = idealSig (envChunkCount env)
    ∨ ∃ p, p <+: idealSig (envChunkCount env) ∧
        (summarize_stream_generator env).map eventSig = p ++ [(.error, none)] := by
  rcases env with ⟨extract, token, call⟩
  rcases extract with msg | text
  · right
    refine ⟨[(.extraction_started, none)], prefix_es _, ?_⟩
    simp [summarize_stream_generator, eventSig]
  · by_cases hstrip : pyStrip text = []
    · right
      refine ⟨[(.extraction_started, none)], prefix_es _, ?_⟩
      simp [summarize_stream_generator, hstrip, eventSig]
    · by_cases htok : tokenFalsy token = true
      · right
        refine ⟨[(.extraction_started, none), (.extraction_complete, none)],
          prefix_es_ec _, ?_⟩
        simp [summarize_stream_generator, hstrip, summarize_text_streaming, htok,
          eventSig]
      · have htok' : tokenFalsy token = false := by simp at htok; exact htok
        rcases herr : (streamLoop call (chunkText text 1000).length 0
            (chunkText text 1000)).2.1 with _ | e
        · rcases hjoin : allStrings (collectParts
              (streamLoop call (chunkText text 1000).length 0 (chunkText text 1000)).1)
            with _ | parts
          · right
            refine ⟨_, prefix_upto_formatting (chunkText text 1000).length, ?_⟩
            simp only [summarize_stream_generator, summarize_text_streaming, htok',
              Bool.false_eq_true, if_false, if_neg hstrip, herr, hjoin, envChunkCount]
            rw [List.map_cons, List.map_cons, List.map_append, List.map_map]
            simp only [Function.comp_def]
            rw [streamLoop_sig_none call _ _ 0 herr]
            simp [eventSig, List.range_eq_range']
          · left
            simp only [summarize_stream_generator, summarize_text_streaming, htok',
              Bool.false_eq_true, if_false, if_neg hstrip, herr, hjoin, envChunkCount]
            rw [List.map_cons, List.map_cons, List.map_append, List.map_map]
            simp only [Function.comp_def]
            rw [streamLoop_sig_none call _ _ 0 herr]
            simp [idealSig, eventSig, List.range_eq_range']
        · right
          obtain ⟨m, hm, hsig⟩ := streamLoop_sig_some call _ _ 0 e herr
          refine ⟨[(.extraction_started, none), (.extraction_complete, none)]
            ++ ((List.range' 0 m).flatMap pairSig ++ [(.chunk_processing, some m)]),
            prefix_upto_chunk m _ (by simpa using hm), ?_⟩
          simp only [summarize_stream_generator, summarize_text_streaming, htok',
            Bool.false_eq_true, if_false, if_neg hstrip, herr, envChunkCount]
          rw [List.map_cons, List.map_cons, List.map_append, List.map_map]
          simp only [Function.comp_def]
          rw [hsig]
          simp [eventSig]

theorem mapInner_no_complete (evs : List InnerEvent) (s f : List Char) :
    Event.complete s f ∉ evs.map mapInnerEvent := by
  intro hmem
  obtain ⟨e, _, he⟩ := List.mem_map.mp hmem
  cases e <;> simp [mapInnerEvent] at he

/-- Claim C2: if the remote call for chunk `k` fails in the sense of the claim
(HTTP error status, per-call timeout, or malformed body) while all
earlier chunks succeed, then both pipelines issue exactly `k + 1` remote
calls (so chunk `k + 1` is never called) and abort with an error: the
blocking pipeline returns no partial summary, and the progressive
stream of the progressive pipeline contains no `complete` event. -/
theorem claim_C2_fail_fast (token : Option (List Char)) (text : List Char)
    (call : Nat → CallResult) (k : Nat)
    (htok : tokenFalsy token = false)
    (hfail : isClaimFailure (call k) = true)
    (hgood : ∀ j, j < k → isGoodStrCall (call j) = true) :
    (∀ S, k < (chunkText text S).length →
      ((summarize_text_async token text call S).2 = k + 1
        ∧ (∃ e, (summarize_text_async token text call S).1 = .error e))
      ∧ ((summarize_text_streaming token text call S).2.2 = k + 1
        ∧ (∃ e, (summarize_text_streaming token text call S).2.1 = some e)))
    ∧ (k < (chunkText text 1000).length →
        ∀ s f, Event.complete s f ∉ summarize_stream_generator ⟨.ok text, token, call⟩) := by
  constructor
  · intro S hk
    have hasync := asyncLoop_fail call (chunkText text S).length k hfail hgood
      (chunkText text S) 0 [] (by omega) (by omega)
    have hstream := streamLoop_fail call (chunkText text S).length k hfail hgood
      (chunkText text S) 0 (by omega) (by omega)
    refine ⟨⟨?_, ?_⟩, ⟨?_, ?_⟩⟩
    · simp only [summarize_text_async, htok, Bool.false_eq_true, if_false]
      rw [hasync.1]
      omega
    · obtain ⟨e, he⟩ := hasync.2
      refine ⟨e, ?_⟩
      simp only [summarize_text_async, htok, Bool.false_eq_true, if_false, he]
      rfl
    · simp only [summarize_text_streaming, htok, Bool.false_eq_true, if_false]
      rw [hstream.2.2]
      omega
    · obtain ⟨e, he⟩ := hstream.2.1
      refine ⟨e, ?_⟩
      simp only [summarize_text_streaming, htok, Bool.false_eq_true, if_false]
      exact he
  · intro hk s f hmem
    by_cases hstrip : pyStrip text = []
    · simp [summarize_stream_generator, hstrip] at hmem
    · have hstream := streamLoop_fail call (chunkText text 1000).length k hfail hgood
        (chunkText text 1000) 0 (by omega) (by omega)
      obtain ⟨e, he⟩ := hstream.2.1
      simp only [summarize_stream_generator, summarize_text_streaming, htok,
        Bool.false_eq_true, if_false, if_neg hstrip, he] at hmem
      rcases List.mem_cons.mp hmem with h | h
      · cases h
      · rcases List.mem_cons.mp h with h2 | h2
        · cases h2
        · rcases List.mem_append.mp h2 with h3 | h3
          · exact mapInner_no_complete _ s f h3
          · simp at h3

theorem claim_C2_witness :
    tokenFalsy (some "t".data) = false
    ∧ isClaimFailure CallResult.timeout = true
    ∧ ((summarize_text_async (some "t".data) "a".data (fun _ => .timeout) 1).2 = 0 + 1
      ∧ (∃ e, (summarize_text_async (some "t".data) "a".data (fun _ => .timeout) 1).1
          = .error e))
    ∧ ((summarize_text_streaming (some "t".data) "a".data (fun _ => .timeout) 1).2.2 = 0 + 1
      ∧ (∃ e, (summarize_text_streaming (some "t".data) "a".data (fun _ => .timeout) 1).2.1
          = some e)) := by
  have hk : 0 < (chunkText "a".data 1).length := by
    rw [chunkText_eq_chunkList _ _ (by omega), chunkList_length _ (by omega)]
    decide
  have h := (claim_C2_fail_fast (some "t".data) "a".data (fun _ => .timeout) 0 rfl rfl
    (fun j hj => absurd hj (by omega))).1 1 hk
  exact ⟨rfl, rfl, h.1, h.2⟩

/-- Claim C4: for every text and every chunk size `S > 0`, the chunking
comprehension produces exactly `⌈len(T)/S⌉` chunks, each of at most `S`
characters, whose in-order concatenation reconstructs the text exactly;
the empty text yields no chunks. -/
theorem claim_C4_chunker (text : List Char) (S : Nat) (hS : 0 < S) :
    (chunkText text S).length = (text.length + S - 1) / S
    ∧ (∀ c ∈ chunkText text S, c.length ≤ S)
    ∧ (chunkText text S).flatten = text
    ∧ (text = [] → chunkText text S = []) := by
  rw [chunkText_eq_chunkList text S hS]
  refine ⟨chunkList_length S hS text, chunkList_mem_length S text,
    chunkList_flatten S hS text, ?_⟩
  intro h
  subst h
  exact chunkList_nil S

theorem claim_C4_witness :
    0 < 3
    ∧ ((chunkText "abcdefgh".data 3).length = ("abcdefgh".data.length + 3 - 1) / 3
      ∧ (∀ c ∈ chunkText "abcdefgh".data 3, c.length ≤ 3)
      ∧ (chunkText "abcdefgh".data 3).flatten = "abcdefgh".data
      ∧ ("abcdefgh".data = [] → chunkText "abcdefgh".data 3 = [])) :=
  ⟨by decide, claim_C4_chunker "abcdefgh".data 3 (by decide)⟩

/-- Claim C8: when the `HF_API_TOKEN` credential is absent, both the
blocking and the streaming summarizer raise the configuration error
(`KeyError`) having issued zero remote calls. -/
theorem claim_C8_missing_credential (token : Option (List Char)) (text : List Char)
    (call : Nat → CallResult) (S : Nat) (htok : token = none) :
    summarize_text_async token text call S = (.error .keyError, 0)
    ∧ summarize_text_streaming token text call S = ([], some .keyError, 0) := by
  subst htok
  exact ⟨rfl, rfl⟩

theorem claim_C8_witness :
    (none : Option (List Char)) = none
    ∧ (summarize_text_async none "hello".data (fun _ => .timeout) 1000
        = (.error .keyError, 0)
      ∧ summarize_text_streaming none "hello".data (fun _ => .timeout) 1000
        = ([], some .keyError, 0)) :=
  ⟨rfl, claim_C8_missing_credential none "hello".data (fun _ => .timeout) 1000 rfl⟩

/-! ### Strip lemmas for the blocking accumulator (claim C5) -/

theorem dropWhile_ws_append (w y : List Char) (hw : ∀ c ∈ w, pyIsSpace c) :
    List.dropWhile pyIsSpace (w ++ y) = List.dropWhile pyIsSpace y := by
  induction w with
  | nil => rfl
  | cons c cs ih =>
    rw [List.cons_append, List.dropWhile_cons]
    rw [if_pos (hw c (List.mem_cons_self c cs))]
    exact ih (fun d hd => hw d (List.mem_cons_of_mem c hd))

theorem lstrip_all_ws (x : List Char) (hx : ∀ c ∈ x, pyIsSpace c) : lstrip x = [] := by
  have := dropWhile_ws_append x [] hx
  simpa [lstrip] using this

theorem lstrip_append_of_ne (x w : List Char) (hx : lstrip x ≠ []) :
    lstrip (x ++ w) = lstrip x ++ w := by
  induction x with
  | nil => exact absurd rfl hx
  | cons c cs ih =>
    by_cases hc : pyIsSpace c
    · have h1 : lstrip (c :: cs) = lstrip cs := by
        simp [lstrip, List.dropWhile_cons, hc]
      rw [h1] at hx ⊢
      rw [List.cons_append]
      have h2 : lstrip (c :: (cs ++ w)) = lstrip (cs ++ w) := by
        simp [lstrip, List.dropWhile_cons, hc]
      rw [h2]
      exact ih hx
    · have h1 : lstrip (c :: cs) = c :: cs := by
        simp [lstrip, List.dropWhile_cons, hc]
      have h2 : lstrip (c :: cs ++ w) = c :: (cs ++ w) := by
        simp [lstrip, List.dropWhile_cons, hc]
      rw [h1, h2]
      rfl

theorem rstrip_ws_append (x w : List Char) (hw : ∀ c ∈ w, pyIsSpace c) :
    rstrip (x ++ w) = rstrip x := by
  unfold rstrip
  rw [List.reverse_append, dropWhile_ws_append w.reverse x.reverse
    (fun c hc => hw c (List.mem_reverse.mp hc))]

theorem pyStrip_append_ws (x w : List Char) (hw : ∀ c ∈ w, pyIsSpace c) :
    pyStrip (x ++ w) = pyStrip x := by
  unfold pyStrip
  by_cases hx : lstrip x = []
  · have hxws : ∀ c ∈ x, pyIsSpace c := by
      intro c hc
      by_contra hcc
      have : lstrip x ≠ [] := by
        intro habs
        have := List.dropWhile_eq_nil_iff.mp habs
        exact hcc (by simpa using this c hc)
      exact this hx
    rw [hx, lstrip_all_ws (x ++ w)
      (fun c hc => by
        rcases List.mem_append.mp hc with h | h
        · exact hxws c h
        · exact hw c h)]
  · rw [lstrip_append_of_ne x w hx, rstrip_ws_append _ w hw]

theorem flatten_map_space (parts : List (List Char)) :
    (parts.map (fun p => p ++ [' '])).flatten
      = joinSp parts ++ (if parts = [] then [] else [' ']) := by
  induction parts with
  | nil => rfl
  | cons p rest ih =>
    rcases rest with _ | ⟨q, qs⟩
    · simp [joinSp, pyJoin]
    · rw [List.map_cons, List.flatten_cons, ih]
      rw [if_neg (by simp), if_neg (by simp)]
      show (p ++ [' ']) ++ (pyJoin [' '] (q :: qs) ++ [' ']) = _
      simp only [joinSp, pyJoin]
      simp [List.append_assoc]

theorem pyStrip_flatten_map_space (parts : List (List Char)) :
    pyStrip ((parts.map (fun p => p ++ [' '])).flatten) = pyStrip (joinSp parts) := by
  rw [flatten_map_space]
  rcases parts with _ | ⟨p, rest⟩
  · simp
  · rw [if_neg (by simp)]
    exact pyStrip_append_ws _ [' '] (by simp [pyIsSpace])

/-! ### Good-run results of both pipelines (claim C5) -/

theorem summarize_async_good (token : Option (List Char)) (text : List Char)
    (call : Nat → CallResult) (S : Nat)
    (htok : tokenFalsy token = false)
    (hgood : ∀ j, j < (chunkText text S).length → isGoodStrCall (call j) = true) :
    (summarize_text_async token text call S).1
      = .ok (pyStrip (joinSp ((List.range (chunkText text S).length).map
          (fun j => callSummary (call j))))) := by
  have hloop := asyncLoop_good call (chunkText text S).length (chunkText text S) 0 []
    (fun j hj => by simpa using hgood j hj)
  simp only [summarize_text_async, htok, Bool.false_eq_true, if_false, hloop]
  simp only [Except.map, List.nil_append]
  rw [← List.range_eq_range']
  have : ((List.range (chunkText text S).length).map
        (fun j => callSummary (call j) ++ [' ']))
      = (((List.range (chunkText text S).length).map
          (fun j => callSummary (call j))).map (fun p => p ++ [' '])) := by
    rw [List.map_map]
    rfl
  rw [this, pyStrip_flatten_map_space]

theorem collectParts_flatMap (call : Nat → CallResult) (total : Nat)
    (rng : List Nat) :
    collectParts (rng.flatMap (innerPair call total))
      = rng.map (fun j => Json.jstr (callSummary (call j))) := by
  induction rng with
  | nil => rfl
  | cons j rest ih =>
    rw [List.flatMap_cons, List.map_cons]
    simp only [collectParts, List.filterMap_append] at ih ⊢
    rw [ih]
    rfl

theorem allStrings_map_jstr (parts : List (List Char)) :
    allStrings (parts.map Json.jstr) = some parts := by
  induction parts with
  | nil => rfl
  | cons p rest ih =>
    rw [List.map_cons]
    show (allStrings (rest.map Json.jstr)).map (fun r => p :: r) = _
    rw [ih]
    rfl

/-- The summaries carried by `complete` events of a stream. -/
def completeSummaries (evs : List Event) : List (List Char) :=
  evs.filterMap (fun e => match e with
    | .complete s _ => some s
    | _ => none)

theorem completeSummaries_mapInner (evs : List InnerEvent) :
    completeSummaries (evs.map mapInnerEvent) = [] := by
  induction evs with
  | nil => rfl
  | cons e rest ih =>
    cases e <;> simp only [completeSummaries, List.map_cons, List.filterMap_cons,
      mapInnerEvent] <;> exact ih

theorem generator_good (text : List Char) (token : Option (List Char))
    (call : Nat → CallResult)
    (htok : tokenFalsy token = false) (hstrip : pyStrip text ≠ [])
    (hgood : ∀ j, j < (chunkText text 1000).length → isGoodStrCall (call j) = true) :
    completeSummaries (summarize_stream_generator ⟨.ok text, token, call⟩)
      = [joinSp ((List.range (chunkText text 1000).length).map
          (fun j => callSummary (call j)))] := by
  have hloop := streamLoop_good call (chunkText text 1000).length (chunkText text 1000) 0
    (fun j hj => by simpa using hgood j hj)
  simp only [summarize_stream_generator, summarize_text_streaming, htok,
    Bool.false_eq_true, if_false, if_neg hstrip, hloop]
  rw [collectParts_flatMap call _ _]
  rw [← List.range_eq_range']
  have hjstr : ((List.range (chunkText text 1000).length).map
        (fun j => Json.jstr (callSummary (call j))))
      = (((List.range (chunkText text 1000).length).map
          (fun j => callSummary (call j))).map Json.jstr) := by
    rw [List.map_map]
    rfl
  rw [hjstr, allStrings_map_jstr]
  simp only [completeSummaries, List.filterMap_cons, List.filterMap_append]
  have hmi := completeSummaries_mapInner ((List.range (chunkText text 1000).length).flatMap
    (innerPair call (chunkText text 1000).length))
  simp only [completeSummaries] at hmi
  rw [hmi]
  rfl

/-- Claim C5 (amended): on a run where every per-chunk call returns a string
summary, the blocking pipeline returns the space-join of the chunk
summaries *stripped of leading/trailing whitespace*, while the
terminal `complete` event of the progressive pipeline carries the plain space-join;
the two (and the space-join named by the claim) coincide exactly when the
space-join has no leading or trailing whitespace. -/
theorem claim_C5_amended (text : List Char) (token : Option (List Char))
    (call : Nat → CallResult)
    (htok : tokenFalsy token = false) (hstrip : pyStrip text ≠ [])
    (hgood : ∀ j, j < (chunkText text 1000).length → isGoodStrCall (call j) = true) :
    (summarize_text_async token text call 1000).1
        = .ok (pyStrip (joinSp ((List.range (chunkText text 1000).length).map
            (fun j => callSummary (call j)))))
    ∧ completeSummaries (summarize_stream_generator ⟨.ok text, token, call⟩)
        = [joinSp ((List.range (chunkText text 1000).length).map
            (fun j => callSummary (call j)))]
    ∧ (pyStrip (joinSp ((List.range (chunkText text 1000).length).map
          (fun j => callSummary (call j))))
        = joinSp ((List.range (chunkText text 1000).length).map
            (fun j => callSummary (call j))) →
        (summarize_text_async token text call 1000).1
          = .ok (joinSp ((List.range (chunkText text 1000).length).map
              (fun j => callSummary (call j))))) := by
  refine ⟨summarize_async_good token text call 1000 htok hgood,
    generator_good text token call htok hstrip hgood, ?_⟩
  intro heq
  rw [summarize_async_good token text call 1000 htok hgood, heq]

/-- Claim C5 counterexample: with a single chunk whose remote summary is
`" a"` (leading space), blocking mode returns `"a"` while the
progressive `complete` event carries `" a"` — the two modes disagree,
and blocking mode differs from the space-join of the chunk summaries. -/
theorem claim_C5_counterexample :
    (summarize_text_async (some ['t']) ['x']
        (fun _ => .response 200 (.jarr [.jobj [(summaryKey, .jstr [' ', 'a'])]]) []) 1000).1
      = .ok ['a']
    ∧ completeSummaries (summarize_stream_generator
        ⟨.ok ['x'], some ['t'],
          fun _ => .response 200 (.jarr [.jobj [(summaryKey, .jstr [' ', 'a'])]]) []⟩)
      = [[' ', 'a']]
    ∧ (['a'] : List Char) ≠ [' ', 'a'] := by
  have hchunks : chunkText ['x'] 1000 = [['x']] := by
    rw [chunkText_eq_chunkList _ _ (by omega), chunkList_cons 1000 (by omega)]
    simp [chunkList_nil]
  refine ⟨?_, ?_, by simp⟩
  · simp only [summarize_text_async, summarize_stream_generator]
    rw [hchunks]
    rfl
  · simp only [summarize_stream_generator, summarize_text_streaming]
    rw [hchunks]
    rfl

theorem claim_C5_witness :
    tokenFalsy (some ['t']) = false
    ∧ (summarize_text_async (some ['t']) ['x']
          (fun _ => .response 200 (.jarr [.jobj [(summaryKey, .jstr ['b'])]]) []) 1000).1
        = .ok (pyStrip (joinSp ((List.range (chunkText ['x'] 1000).length).map
            (fun j => callSummary ((fun _ => CallResult.response 200
              (.jarr [.jobj [(summaryKey, .jstr ['b'])]]) []) j)))))
    ∧ completeSummaries (summarize_stream_generator
        ⟨.ok ['x'], some ['t'],
          fun _ => .response 200 (.jarr [.jobj [(summaryKey, .jstr ['b'])]]) []⟩)
        = [joinSp ((List.range (chunkText ['x'] 1000).length).map
            (fun j => callSummary ((fun _ => CallResult.response 200
              (.jarr [.jobj [(summaryKey, .jstr ['b'])]]) []) j)))] := by
  have h := claim_C5_amended ['x'] (some ['t'])
    (fun _ => .response 200 (.jarr [.jobj [(summaryKey, .jstr ['b'])]]) [])
    rfl (by decide) (fun j _ => by
      show isGoodStrCall (CallResult.response 200
        (.jarr [.jobj [(summaryKey, .jstr ['b'])]]) []) = true
      decide)
  exact ⟨rfl, h.1, h.2.1⟩

/-- Claim C3 counterexample: a 2xx response whose JSON body is `[5]` is
*not* a non-empty list whose first element contains a summary field, so
the claim demands a malformed-response error carrying the raw body; the
code instead raises a `TypeError` from `"summary_text" in result[0]`
(an `int` does not support `in`), which is not the body-carrying
`ValueError`. -/
theorem claim_C3_counterexample :
    processChunkAsync (.response 200 (.jarr [.jnum 5]) []) 0 1 = .error .typeErr
    ∧ processChunkAsync (.response 200 (.jarr [.jnum 5]) []) 0 1
        ≠ .error (.malformed (.jarr [.jnum 5])) := by
  refine ⟨rfl, ?_⟩
  intro h
  rw [show processChunkAsync (.response 200 (.jarr [.jnum 5]) []) 0 1
    = .error .typeErr from rfl] at h
  injection h with h2
  cases h2

/-- Claim C3 (amended): the status mapping of the per-chunk client: 429 →
rate-limit error (with the retry-later message), 503 → transient
unavailability (with the retry message), any other non-2xx → generic
API error carrying status and body text; for a 2xx response, a body
that is not a list, an empty list, or a first element whose membership
test cleanly lacks `summary_text` → malformed-response `ValueError`
carrying the raw body, while a first element that does not support the
membership test (e.g. a number) raises a `TypeError` instead. -/
theorem claim_C3_amended (st : Nat) (body : Json) (txt : List Char) (i total : Nat) :
    (processChunkAsync (.response 429 body txt) i total = .error .rateLimit
      ∧ pyErrMessage .rateLimit = "Rate limit exceeded. Please try again later.".data)
    ∧ (processChunkAsync (.response 503 body txt) i total = .error .unavailable
      ∧ pyErrMessage .unavailable
          = "Hugging Face API is temporarily unavailable. Please try again.".data)
    ∧ (is2xx st = false → st ≠ 429 → st ≠ 503 →
        processChunkAsync (.response st body txt) i total = .error (.apiError st txt))
    ∧ (is2xx st = true →
        ((∀ x rest, body ≠ .jarr (x :: rest)) →
          processChunkAsync (.response st body txt) i total = .error (.malformed body))
        ∧ (∀ x rest, body = .jarr (x :: rest) → pyContains summaryKey x = .ok false →
          processChunkAsync (.response st body txt) i total = .error (.malformed body))
        ∧ (∀ x rest, body = .jarr (x :: rest) → pyContains summaryKey x = .error () →
          processChunkAsync (.response st body txt) i total = .error .typeErr)) := by
  refine ⟨⟨rfl, rfl⟩, ⟨rfl, rfl⟩, ?_, ?_⟩
  · intro h2 h429 h503
    simp only [processChunkAsync, h2, Bool.false_eq_true, if_false,
      if_neg h429, if_neg h503]
  · intro h2
    refine ⟨?_, ?_, ?_⟩
    · intro hne
      rcases body with _ | _ | _ | _ | ⟨elems⟩ | _
      · simp [processChunkAsync, h2]
      · simp [processChunkAsync, h2]
      · simp [processChunkAsync, h2]
      · simp [processChunkAsync, h2]
      · rcases elems with _ | ⟨x, rest⟩
        · simp [processChunkAsync, h2]
        · exact absurd rfl (hne x rest)
      · simp [processChunkAsync, h2]
    · intro x rest hbody hc
      subst hbody
      simp only [processChunkAsync, h2, if_true, hc]
    · intro x rest hbody hc
      subst hbody
      simp only [processChunkAsync, h2, if_true, hc]

theorem claim_C3_amended_witness :
    processChunkAsync (.response 429 .jnull ['b']) 0 1 = .error .rateLimit
    ∧ processChunkAsync (.response 404 .jnull ['b']) 0 1 = .error (.apiError 404 ['b'])
    ∧ processChunkAsync (.response 200 .jnull ['b']) 0 1 = .error (.malformed .jnull)
    ∧ processChunkAsync (.response 200 (.jarr [.jobj []]) ['b']) 0 1
        = .error (.malformed (.jarr [.jobj []])) := by
  refine ⟨(claim_C3_amended 404 .jnull ['b'] 0 1).1.1, ?_, ?_, ?_⟩
  · exact (claim_C3_amended 404 .jnull ['b'] 0 1).2.2.1 (by decide) (by decide) (by decide)
  · exact ((claim_C3_amended 200 .jnull ['b'] 0 1).2.2.2 (by decide)).1
      (by intro x rest h; cases h)
  · exact ((claim_C3_amended 200 (.jarr [.jobj []]) ['b'] 0 1).2.2.2 (by decide)).2.1
      (.jobj []) [] rfl rfl

/-- Claim C6: the formatter splits the stripped input into `N ≥ 1`
sentences by the boundary rule, groups them into exactly `⌈N/3⌉` runs
of at most 3 consecutive sentences (their concatenation being the
sentence list itself), joins each run with single spaces, and joins the
runs with a blank line; empty or whitespace-only input yields the empty
string. -/
theorem claim_C6_formatter (s : List Char) :
    1 ≤ (splitSentences (pyStrip s)).length
    ∧ format_summary_to_paragraphs s
        = pyJoin nl2 ((chunkList 3 (splitSentences (pyStrip s))).map joinSp)
    ∧ (chunkList 3 (splitSentences (pyStrip s))).length
        = ((splitSentences (pyStrip s)).length + 3 - 1) / 3
    ∧ (∀ g ∈ chunkList 3 (splitSentences (pyStrip s)), g.length ≤ 3)
    ∧ (chunkList 3 (splitSentences (pyStrip s))).flatten = splitSentences (pyStrip s)
    ∧ (pyStrip s = [] → format_summary_to_paragraphs s = []) := by
  refine ⟨?_, format_summary_eq s, chunkList_length 3 (by omega) _,
    chunkList_mem_length 3 _, chunkList_flatten 3 (by omega) _, ?_⟩
  · have h := splitAux_ne_nil (pyStrip s) false []
    unfold splitSentences
    rcases hsplit : splitSentencesAux false (pyStrip s) [] with _ | ⟨a, rest⟩
    · exact absurd hsplit h
    · simp
  · intro hempty
    rw [format_summary_eq s, hempty]
    have hsentences : splitSentences ([] : List Char) = [[]] := by
      unfold splitSentences
      rw [splitAux_nil]
      rfl
    rw [hsentences, chunkList_cons 3 (by omega)]
    simp [chunkList_nil, joinSp, pyJoin]

theorem claim_C6_witness : format_summary_to_paragraphs [' '] = [] := by
  have h := claim_C6_formatter [' ']
  exact h.2.2.2.2.2 (by decide)

theorem nl2_ws : ∀ c ∈ nl2, pyIsSpace c = true := by
  intro c hc
  simp only [nl2, List.mem_cons, List.not_mem_nil, or_false] at hc
  rcases hc with h | h <;> subst h <;> decide

theorem sp_ws : ∀ c ∈ ([' '] : List Char), pyIsSpace c = true := by
  intro c hc
  simp only [List.mem_cons, List.not_mem_nil, or_false] at hc
  subst hc
  decide

/-- Claim C7: removing the paragraph breaks of the formatted summary
(each `"\n\n"` replaced by a single space) preserves the Python word
count of the input summary exactly. -/
theorem claim_C7_word_count (s : List Char) :
    wordCount (replaceAll nl2 [' '] (format_summary_to_paragraphs s)) = wordCount s := by
  have hrep := wcAux_replaceAll nl2 [' '] nl2_ws (by decide) sp_ws (by decide)
    (format_summary_to_paragraphs s) true
  unfold wordCount
  rw [hrep]
  have h1 : wcAux (format_summary_to_paragraphs s) true
      = wordCount (format_summary_to_paragraphs s) := rfl
  rw [h1, format_summary_eq s]
  rw [wordCount_pyJoin nl2 nl2_ws (by decide)]
  have hsum : ∀ (groups : List (List (List Char))),
      ((groups.map joinSp).map wordCount).sum = (groups.flatten.map wordCount).sum := by
    intro groups
    induction groups with
    | nil => rfl
    | cons g rest ih =>
      simp only [List.map_cons, List.sum_cons, List.flatten_cons, List.map_append,
        List.sum_append]
      rw [ih]
      congr 1
      exact wordCount_pyJoin [' '] sp_ws (by decide) g
  rw [hsum, chunkList_flatten 3 (by omega), wcSum_splitSentences, wordCount_pyStrip]
  rfl

/-- Claim C9: a successful extraction of an `n`-character text through the
blocking endpoint increases the quota counter of the current month key
by exactly `n`, leaves every other month key unchanged, and `track` (the
only mutating tracker operation) never decreases any monthly counter. -/
theorem claim_C9_quota (month : List Char) (limit : Nat) (usage : Usage)
    (fileSize maxSize : Nat) (text : List Char) (token : Option (List Char))
    (call : Nat → CallResult)
    (hsize : fileSize ≤ maxSize)
    (hquota : is_quota_exceeded limit month usage = false)
    (htext : pyStrip text ≠ []) :
    ((summarize_endpoint month limit usage true fileSize maxSize (.ok text) token call).1 month
        = usage month + text.length)
    ∧ (∀ k, k ≠ month →
        (summarize_endpoint month limit usage true fileSize maxSize (.ok text) token call).1 k
          = usage k)
    ∧ (∀ (u : Usage) (m : List Char) (n : Nat) (k : List Char), u k ≤ track m n u k) := by
  have hres : (summarize_endpoint month limit usage true fileSize maxSize
      (.ok text) token call).1 = track month text.length usage := by
    simp only [summarize_endpoint, not_true_eq_false, if_false, hquota,
      Bool.false_eq_true, if_neg (by omega : ¬ maxSize < fileSize), if_neg htext]
    rcases (summarize_text_async token text call 1000).1 with e | summary <;> rfl
  refine ⟨?_, ?_, ?_⟩
  · rw [hres]
    simp [track]
  · intro k hk
    rw [hres]
    simp [track, hk]
  · intro u m n k
    unfold track
    by_cases hk : k = m
    · rw [if_pos hk]
      omega
    · rw [if_neg hk]

theorem claim_C9_witness :
    (0 : Nat) ≤ 10
    ∧ is_quota_exceeded 30000 "2025-10".data (fun _ => 0) = false
    ∧ pyStrip "abc".data ≠ []
    ∧ ((summarize_endpoint "2025-10".data 30000 (fun _ => 0) true 0 10
          (.ok "abc".data) none (fun _ => .timeout)).1 "2025-10".data
        = (fun _ => 0 : Usage) "2025-10".data + "abc".data.length) := by
  have h := claim_C9_quota "2025-10".data 30000 (fun _ => 0) 0 10 "abc".data none
    (fun _ => .timeout) (by omega) rfl (by decide)
  exact ⟨by omega, rfl, by decide, h.1⟩

/-- Claim C10: the streaming endpoint never mutates the quota counter: on
every path — early rejections and full runs of the generator alike —
the usage mapping it returns is the one it was given; only the blocking
endpoint calls `track`. -/
theorem claim_C10_stream_no_track (month : List Char) (limit : Nat) (usage : Usage)
    (isPdf : Bool) (fileSize maxSize : Nat) (env : StreamEnv) :
    (summarize_stream_endpoint month limit usage isPdf fileSize maxSize env).1 = usage := by
  unfold summarize_stream_endpoint
  by_cases h1 : ¬ isPdf = true
  · rw [if_pos h1]
  · rw [if_neg h1]
    by_cases h2 : maxSize < fileSize
    · rw [if_pos h2]
    · rw [if_neg h2]
      by_cases h3 : is_quota_exceeded limit month usage = true
      · rw [if_pos h3]
      · rw [if_neg h3]
